import Mathlib

/-!
# Label reconciliation — shallow embedding of `src/main.ts` (`run`)

The program synchronizes a repository's issue labels against a manifest.
`run` builds a `Map` from manifest entries (validating each entry has a
non-empty `name` and `color`, last entry wins on duplicate names), then —
unless the mode is `"add"` — iterates over the current labels: in
`"update"` mode it updates a label whose manifest counterpart differs and
removes the name from the map, in any other mode it deletes the label.
Finally every entry left in the map is created.  Mutation calls are
`await`ed one by one; the first failure aborts the run via the outer
`catch`, which reports the error message through `core.setFailed`.

We model labels, the manifest, the insertion-ordered map, the emitted
action sequence, and the sequential execution with a failure oracle.
-/

set_option autoImplicit false

namespace LabelSync

/-- A label currently present on the remote repository, as returned by
`listLabelsForRepo`: `description` may be `null`/absent (`none`). -/
structure Label where
  name : String
  color : String
  description : Option String
deriving DecidableEq, Repr

/-- One entry of the parsed manifest array.  `name`/`color` are strings where
`""` stands for a missing or empty (JS-falsy) field; `description` is
optional. -/
structure ManifestEntry where
  name : String
  color : String
  description : Option String
deriving DecidableEq, Repr

/-- The value stored in `fileLabelsMap`: `{ color, description: label.description || '' }`. -/
structure FileLabel where
  color : String
  description : String
deriving DecidableEq, Repr

/-- `fileLabelsMap`: a JS `Map` from label name to `FileLabel`, modelled as an
insertion-ordered association list. -/
abbrev LabelMap := List (String × FileLabel)

/-- JS `Map.prototype.set`: overwrite in place when the key exists (keeping its
insertion position), otherwise append. -/
def mapSet : LabelMap → String → FileLabel → LabelMap
  | [], k, v => [(k, v)]
  | q :: m, k, v => if q.1 = k then (k, v) :: m else q :: mapSet m k v

/-- JS `Map.prototype.has`. -/
def mapHas (m : LabelMap) (k : String) : Bool :=
  m.any (fun q => q.1 = k)

/-- JS `Map.prototype.get` (first — and, under the nodup-keys invariant,
only — binding of `k`). -/
def mapGet (m : LabelMap) (k : String) : Option FileLabel :=
  (m.find? (fun q => q.1 = k)).map (fun q => q.2)

/-- JS `Map.prototype.delete`. -/
def mapDelete (m : LabelMap) (k : String) : LabelMap :=
  m.filter (fun q => ¬ q.1 = k)

/-- The error message thrown by the per-entry manifest validation. -/
def validationMsg : String := "Each label must have at least a name and a color."

/-- The loop at lines 42–52 of `main.ts`, starting from map `m`: validate each
entry (`!label.name || !label.color` throws) and insert
`{color, description: label.description || ''}`. -/
def buildFrom (m : LabelMap) : List ManifestEntry → Except String LabelMap
  | [] => Except.ok m
  | e :: es =>
    if e.name = "" ∨ e.color = "" then
      Except.error validationMsg
    else
      buildFrom (mapSet m e.name ⟨e.color, e.description.getD ""⟩) es

/-- Build `fileLabelsMap` from the parsed manifest array. -/
def buildFileLabelsMap (es : List ManifestEntry) : Except String LabelMap :=
  buildFrom [] es

/-- A mutation call against the remote label service, in the order the code
issues them. -/
inductive Action where
  | update (name color description : String)
  | delete (name : String)
  | create (name color description : String)
deriving DecidableEq, Repr

/-- The name the action targets. -/
def Action.actionName : Action → String
  | .update n _ _ => n
  | .delete n => n
  | .create n _ _ => n

/-- Is this a `createLabel` call? -/
def Action.isCreate : Action → Bool
  | .create _ _ _ => true
  | _ => false

/-- The loop over existing labels (lines 64–98 of `main.ts`): returns the
actions emitted during the pass and the map after the `fileLabelsMap.delete`
calls.  In `"update"` mode a matching label is compared field by field
(`label.color !== fileLabel.color || (label.description || '') !==
(fileLabel.description || '')`) and its name removed from the map; in any
other mode (the `else` branch, reached only when `mode !== 'add'`) the label
is deleted unconditionally. -/
def processCurrentLabels (mode : String) : List Label → LabelMap → List Action × LabelMap
  | [], m => ([], m)
  | l :: ls, m =>
    if mode = "update" then
      if mapHas m l.name then
        match mapGet m l.name with
        | some fileLabel =>
          let here : List Action :=
            if l.color ≠ fileLabel.color ∨ l.description.getD "" ≠ fileLabel.description then
              [Action.update l.name fileLabel.color fileLabel.description]
            else []
          let rest := processCurrentLabels mode ls (mapDelete m l.name)
          (here ++ rest.1, rest.2)
        | none => processCurrentLabels mode ls m
      else
        processCurrentLabels mode ls m
    else
      let rest := processCurrentLabels mode ls m
      (Action.delete l.name :: rest.1, rest.2)

/-- The create loop (lines 100–110): one `createLabel` per remaining map entry,
in the map's iteration (insertion) order. -/
def createActions (m : LabelMap) : List Action :=
  m.map (fun q => Action.create q.1 q.2.color q.2.description)

/-- The full emitted action sequence for a run with map `m`: the current-set
pass is skipped exactly when `mode = "add"` (line 55), then the create loop
runs on what is left of the map. -/
def reconcileActions (mode : String) (current : List Label) (m : LabelMap) : List Action :=
  let pass := if mode ≠ "add" then processCurrentLabels mode current m else ([], m)
  pass.1 ++ createActions pass.2

/-- Sequential execution of the awaited mutation calls.  `failSpec i` is
`some msg` when the `i`-th call (0-based) rejects with an `Error` carrying
`msg`.  Returns the calls that completed before the first failure, and the
failure message if any: the code awaits each call in order and the outer
`catch` stops everything at the first rejection. -/
def executeFrom (failSpec : Nat → Option String) : Nat → List Action → List Action × Option String
  | _, [] => ([], none)
  | i, a :: rest =>
    match failSpec i with
    | some msg => ([], some msg)
    | none =>
      let r := executeFrom failSpec (i + 1) rest
      (a :: r.1, r.2)

/-- Observable outcome of one invocation of `run`: either every mutation call
succeeded, or `core.setFailed(message)` was called after the listed mutations
had already been applied (no rollback). -/
inductive RunResult where
  | ok (applied : List Action)
  | failed (applied : List Action) (message : String)
deriving DecidableEq, Repr

/-- The whole of `run` (for a manifest that was found and parsed to an array):
build and validate `fileLabelsMap` — a validation error reaches the `catch`
before any mutation — then emit and apply the reconciliation actions in
order, stopping at the first failed call. -/
def run (failSpec : Nat → Option String) (mode : String) (manifest : List ManifestEntry)
    (current : List Label) : RunResult :=
  match buildFileLabelsMap manifest with
  | Except.error msg => RunResult.failed [] msg
  | Except.ok m =>
    match executeFrom failSpec 0 (reconcileActions mode current m) with
    | (applied, some msg) => RunResult.failed applied msg
    | (applied, none) => RunResult.ok applied

/-- `core.getInput('mode') || 'update'` (line 15): an unset/empty input
defaults to `"update"`. -/
def effectiveMode (input : String) : String :=
  if input = "" then "update" else input

/-- A failure oracle under which every call succeeds. -/
def noFail : Nat → Option String := fun _ => none

/-- Remote-service semantics of a single applied action, as the claims'
hypotheses use it: `deleteLabel` removes the label of that name, `updateLabel`
sets color and description of the label of that name, `createLabel` adds a new
label with the given fields. -/
def applyAction (cur : List Label) : Action → List Label
  | .delete n => cur.filter (fun l => ¬ l.name = n)
  | .update n c d => cur.map (fun l => if l.name = n then ⟨l.name, c, some d⟩ else l)
  | .create n c d => cur ++ [⟨n, c, some d⟩]

/-- Remote state after applying a sequence of actions in order. -/
def applyActions (cur : List Label) (acts : List Action) : List Label :=
  acts.foldl applyAction cur

/-- The keys of the map, in iteration order. -/
def mapKeys (m : LabelMap) : List String :=
  m.map Prod.fst

/-- The first label of that name in the current set. -/
def findLabel (cur : List Label) (k : String) : Option Label :=
  cur.find? (fun l => l.name = k)

/-- The current label agrees with the desired file label on both compared
fields (description empty-string-normalized, as in lines 71–74). -/
def matchesDesired (l : Label) (v : FileLabel) : Prop :=
  l.color = v.color ∧ l.description.getD "" = v.description

/-- The effect of one action on one label, as far as `updateLabel` is
concerned: an update of this label's name rewrites color and description,
everything else leaves the label itself unchanged. -/
def updStep (l : Label) : Action → Label
  | .update n c d => if l.name = n then ⟨l.name, c, some d⟩ else l
  | _ => l

/-- The label a manifest map entry turns into when `createLabel` is applied. -/
def createdLabel (q : String × FileLabel) : Label :=
  ⟨q.1, q.2.color, some q.2.description⟩

/-- The last manifest entry carrying this name, if any. -/
def lastEntry (n : String) : List ManifestEntry → Option ManifestEntry
  | [] => none
  | e :: es =>
    match lastEntry n es with
    | some e' => some e'
    | none => if e.name = n then some e else none

/-! ## Map lemmas -/

theorem mapHas_iff_exists {m : LabelMap} {k : String} :
    mapHas m k = true ↔ ∃ q ∈ m, q.1 = k := by
  simp [mapHas, List.any_eq_true]

theorem mapHas_of_mem {m : LabelMap} {q : String × FileLabel} (h : q ∈ m) :
    mapHas m q.1 = true :=
  mapHas_iff_exists.2 ⟨q, h, rfl⟩

theorem not_key_of_not_mapHas {m : LabelMap} {k : String} (h : mapHas m k = false) :
    ∀ q ∈ m, ¬ q.1 = k := by
  intro q hq hk
  have := mapHas_iff_exists.2 ⟨q, hq, hk⟩
  rw [h] at this
  exact Bool.false_ne_true this

theorem mapGet_nil (k : String) : mapGet [] k = none := rfl

theorem mapGet_cons_pos {q : String × FileLabel} {m : LabelMap} {k : String} (h : q.1 = k) :
    mapGet (q :: m) k = some q.2 := by
  unfold mapGet
  rw [List.find?_cons_of_pos _ (by simpa using h)]
  rfl

theorem mapGet_cons_neg {q : String × FileLabel} {m : LabelMap} {k : String} (h : ¬ q.1 = k) :
    mapGet (q :: m) k = mapGet m k := by
  unfold mapGet
  rw [List.find?_cons_of_neg _ (by simpa using h)]

theorem mapGet_mem {m : LabelMap} {k : String} {v : FileLabel} (h : mapGet m k = some v) :
    (k, v) ∈ m := by
  induction m with
  | nil => rw [mapGet_nil] at h; cases h
  | cons q m ih =>
    by_cases hq : q.1 = k
    · rw [mapGet_cons_pos hq] at h
      have hv : q.2 = v := Option.some.inj h
      have : q = (k, v) := by cases q; simp_all
      rw [← this]; exact List.mem_cons_self q m
    · rw [mapGet_cons_neg hq] at h
      exact List.mem_cons_of_mem q (ih h)

theorem mapHas_eq_isSome (m : LabelMap) (k : String) :
    mapHas m k = (mapGet m k).isSome := by
  induction m with
  | nil => rfl
  | cons q m ih =>
    by_cases hq : q.1 = k
    · rw [mapGet_cons_pos hq]
      simp [mapHas, hq]
    · rw [mapGet_cons_neg hq]
      simp only [mapHas, List.any_cons] at ih ⊢
      simp [hq, ih]

theorem exists_mapGet_of_mapHas {m : LabelMap} {k : String} (h : mapHas m k = true) :
    ∃ v, mapGet m k = some v := by
  rw [mapHas_eq_isSome] at h
  rcases hg : mapGet m k with _ | v
  · rw [hg] at h; cases h
  · exact ⟨v, rfl⟩

theorem mapHas_of_mapGet {m : LabelMap} {k : String} {v : FileLabel}
    (h : mapGet m k = some v) : mapHas m k = true := by
  rw [mapHas_eq_isSome, h]
  rfl

theorem mem_mapDelete {m : LabelMap} {k : String} {q : String × FileLabel} :
    q ∈ mapDelete m k ↔ q ∈ m ∧ ¬ q.1 = k := by
  simp [mapDelete, List.mem_filter]

theorem mapKeys_mapDelete_sublist (m : LabelMap) (k : String) :
    (mapKeys (mapDelete m k)).Sublist (mapKeys m) :=
  List.Sublist.map Prod.fst (List.filter_sublist m)

theorem mapKeys_nodup_mapDelete {m : LabelMap} (k : String) (h : (mapKeys m).Nodup) :
    (mapKeys (mapDelete m k)).Nodup :=
  (mapKeys_mapDelete_sublist m k).nodup h

theorem mapKeys_cons (q : String × FileLabel) (m : LabelMap) :
    mapKeys (q :: m) = q.1 :: mapKeys m := rfl

theorem mapGet_eq_of_mem {m : LabelMap} (hnd : (mapKeys m).Nodup) {k : String} {v : FileLabel}
    (h : (k, v) ∈ m) : mapGet m k = some v := by
  induction m with
  | nil => cases h
  | cons q m ih =>
    rw [mapKeys_cons] at hnd
    rcases List.mem_cons.1 h with hq | hq
    · rw [← hq] at *
      exact mapGet_cons_pos rfl
    · have hne : ¬ q.1 = k := by
        intro hk
        have : k ∈ mapKeys m := List.mem_map.2 ⟨(k, v), hq, rfl⟩
        exact (List.nodup_cons.1 hnd).1 (hk ▸ this)
      rw [mapGet_cons_neg hne]
      exact ih (List.nodup_cons.1 hnd).2 hq

theorem mapGet_mapSet (m : LabelMap) (k : String) (v : FileLabel) (n : String) :
    mapGet (mapSet m k v) n = if k = n then some v else mapGet m n := by
  induction m with
  | nil =>
    by_cases hkn : k = n
    · rw [if_pos hkn, mapSet]
      exact mapGet_cons_pos hkn
    · rw [if_neg hkn, mapSet, mapGet_cons_neg hkn]
  | cons q m ih =>
    by_cases hqk : q.1 = k
    · rw [mapSet, if_pos hqk]
      by_cases hkn : k = n
      · rw [if_pos hkn, mapGet_cons_pos hkn]
      · rw [if_neg hkn, mapGet_cons_neg hkn, mapGet_cons_neg (by rw [hqk]; exact hkn)]
    · rw [mapSet, if_neg hqk]
      by_cases hqn : q.1 = n
      · have hkn : ¬ k = n := by
          intro hkn; exact hqk (by rw [hqn, hkn])
        rw [if_neg hkn, mapGet_cons_pos hqn, mapGet_cons_pos hqn]
      · rw [mapGet_cons_neg hqn, mapGet_cons_neg hqn]
        exact ih

theorem mapHas_mapSet (m : LabelMap) (k : String) (v : FileLabel) (n : String) :
    mapHas (mapSet m k v) n = (mapHas m n || decide (k = n)) := by
  rw [mapHas_eq_isSome, mapHas_eq_isSome, mapGet_mapSet]
  by_cases hkn : k = n
  · simp [hkn]
  · simp [hkn]

theorem mem_mapKeys_iff {m : LabelMap} {n : String} :
    n ∈ mapKeys m ↔ mapHas m n = true := by
  rw [mapHas_iff_exists]
  constructor
  · intro h
    rcases List.mem_map.1 h with ⟨q, hq, hk⟩
    exact ⟨q, hq, hk⟩
  · intro ⟨q, hq, hk⟩
    exact List.mem_map.2 ⟨q, hq, hk⟩

theorem mapKeys_nodup_mapSet {m : LabelMap} (k : String) (v : FileLabel)
    (h : (mapKeys m).Nodup) : (mapKeys (mapSet m k v)).Nodup := by
  induction m with
  | nil => simp [mapSet, mapKeys]
  | cons q m ih =>
    rw [mapKeys_cons] at h
    have h1 : q.1 ∉ mapKeys m := (List.nodup_cons.1 h).1
    have h2 : (mapKeys m).Nodup := (List.nodup_cons.1 h).2
    by_cases hqk : q.1 = k
    · rw [mapSet, if_pos hqk, mapKeys_cons]
      exact List.nodup_cons.2 ⟨by rw [← hqk]; exact h1, h2⟩
    · rw [mapSet, if_neg hqk, mapKeys_cons]
      refine List.nodup_cons.2 ⟨?_, ih h2⟩
      intro hmem
      have hx : mapHas (mapSet m k v) q.1 = true := mem_mapKeys_iff.1 hmem
      rw [mapHas_mapSet] at hx
      rcases Bool.or_eq_true_iff.1 hx with hx | hx
      · exact h1 (mem_mapKeys_iff.2 hx)
      · exact hqk (of_decide_eq_true hx).symm

/-! ## Building the file-labels map -/

theorem buildFrom_nodup :
    ∀ (es : List ManifestEntry) (m m' : LabelMap), (mapKeys m).Nodup →
      buildFrom m es = Except.ok m' → (mapKeys m').Nodup := by
  intro es
  induction es with
  | nil =>
    intro m m' hnd h
    cases h
    exact hnd
  | cons e es ih =>
    intro m m' hnd h
    rw [buildFrom] at h
    split at h
    · cases h
    · exact ih _ _ (mapKeys_nodup_mapSet _ _ hnd) h

theorem buildFileLabelsMap_nodup {es : List ManifestEntry} {m : LabelMap}
    (h : buildFileLabelsMap es = Except.ok m) : (mapKeys m).Nodup :=
  buildFrom_nodup es [] m List.nodup_nil h

theorem buildFrom_error_of_invalid :
    ∀ (es : List ManifestEntry) (m : LabelMap),
      (∃ e ∈ es, e.name = "" ∨ e.color = "") →
      buildFrom m es = Except.error validationMsg := by
  intro es
  induction es with
  | nil =>
    intro m ⟨e, he, _⟩
    cases he
  | cons e es ih =>
    intro m ⟨e', he', hbad⟩
    rw [buildFrom]
    rcases List.mem_cons.1 he' with h | h
    · rw [if_pos (h ▸ hbad)]
    · split
      · rfl
      · exact ih _ ⟨e', h, hbad⟩

theorem buildFrom_ok_of_valid :
    ∀ (es : List ManifestEntry) (m : LabelMap),
      (∀ e ∈ es, ¬(e.name = "" ∨ e.color = "")) →
      ∃ m', buildFrom m es = Except.ok m' := by
  intro es
  induction es with
  | nil => exact fun m _ => ⟨m, rfl⟩
  | cons e es ih =>
    intro m hval
    rw [buildFrom, if_neg (hval e (List.mem_cons_self e es))]
    exact ih _ (fun e' he' => hval e' (List.mem_cons_of_mem e he'))

theorem buildFrom_mapGet :
    ∀ (es : List ManifestEntry) (m m' : LabelMap), buildFrom m es = Except.ok m' →
      ∀ n, mapGet m' n =
        (match lastEntry n es with
         | some e => some ⟨e.color, e.description.getD ""⟩
         | none => mapGet m n) := by
  intro es
  induction es with
  | nil =>
    intro m m' h n
    cases h
    rfl
  | cons e es ih =>
    intro m m' h n
    rw [buildFrom] at h
    split at h
    · cases h
    · have := ih _ _ h n
      rw [this, lastEntry]
      rcases hl : lastEntry n es with _ | e'
      · rw [mapGet_mapSet]
        by_cases hen : e.name = n
        · rw [if_pos hen, if_pos hen]
        · rw [if_neg hen, if_neg hen]
      · rfl

theorem lastEntry_isSome (n : String) (es : List ManifestEntry) :
    (lastEntry n es).isSome = es.any (fun e => e.name = n) := by
  induction es with
  | nil => rfl
  | cons e es ih =>
    rw [lastEntry, List.any_cons]
    rcases hl : lastEntry n es with _ | e'
    · rw [hl] at ih
      rw [← ih]
      by_cases hen : e.name = n
      · simp [hen]
      · simp [hen]
    · rw [hl] at ih
      rw [← ih]
      simp

theorem buildFrom_mapHas {es : List ManifestEntry} {m m' : LabelMap}
    (h : buildFrom m es = Except.ok m') (n : String) :
    mapHas m' n = (mapHas m n || es.any (fun e => e.name = n)) := by
  rw [mapHas_eq_isSome, buildFrom_mapGet es m m' h n, ← lastEntry_isSome]
  rcases hl : lastEntry n es with _ | e
  · rw [← mapHas_eq_isSome]
    simp
  · simp

theorem buildFileLabelsMap_mapHas {es : List ManifestEntry} {m : LabelMap}
    (h : buildFileLabelsMap es = Except.ok m) (n : String) :
    mapHas m n = es.any (fun e => e.name = n) := by
  have := buildFrom_mapHas h n
  simpa [mapHas] using this

/-! ## The current-set pass -/

theorem pcl_nil (mode : String) (m : LabelMap) :
    processCurrentLabels mode [] m = ([], m) := rfl

theorem pcl_cons_other {mode : String} (hmode : ¬ mode = "update") (l : Label)
    (ls : List Label) (m : LabelMap) :
    processCurrentLabels mode (l :: ls) m =
      (Action.delete l.name :: (processCurrentLabels mode ls m).1,
       (processCurrentLabels mode ls m).2) := by
  rw [processCurrentLabels, if_neg hmode]

theorem pcl_cons_update_has {l : Label} {ls : List Label} {m : LabelMap} {fl : FileLabel}
    (hget : mapGet m l.name = some fl) :
    processCurrentLabels "update" (l :: ls) m =
      ((if l.color ≠ fl.color ∨ l.description.getD "" ≠ fl.description
          then [Action.update l.name fl.color fl.description] else [])
         ++ (processCurrentLabels "update" ls (mapDelete m l.name)).1,
       (processCurrentLabels "update" ls (mapDelete m l.name)).2) := by
  have hhas : mapHas m l.name = true := mapHas_of_mapGet hget
  rw [processCurrentLabels, if_pos rfl, hhas, hget]
  simp

theorem pcl_cons_update_not_has {l : Label} {ls : List Label} {m : LabelMap}
    (hhas : mapHas m l.name = false) :
    processCurrentLabels "update" (l :: ls) m = processCurrentLabels "update" ls m := by
  rw [processCurrentLabels, if_pos rfl, hhas]
  simp

theorem pcl_of_ne_update {mode : String} (hmode : ¬ mode = "update") :
    ∀ (cur : List Label) (m : LabelMap),
      processCurrentLabels mode cur m = (cur.map (fun l => Action.delete l.name), m) := by
  intro cur
  induction cur with
  | nil => intro m; rfl
  | cons l ls ih =>
    intro m
    rw [pcl_cons_other hmode, ih, List.map_cons]

theorem mapHas_of_mapHas_mapDelete {m : LabelMap} {k n : String}
    (h : mapHas (mapDelete m k) n = true) : mapHas m n = true := by
  rcases mapHas_iff_exists.1 h with ⟨q, hq, hk⟩
  exact mapHas_iff_exists.2 ⟨q, (mem_mapDelete.1 hq).1, hk⟩

theorem pcl_update_snd :
    ∀ (cur : List Label) (m : LabelMap),
      (processCurrentLabels "update" cur m).2
        = m.filter (fun q => ¬ cur.any (fun l => l.name = q.1)) := by
  intro cur
  induction cur with
  | nil =>
    intro m
    rw [pcl_nil]
    simp
  | cons l ls ih =>
    intro m
    rcases hhas : mapHas m l.name with _ | _
    · rw [pcl_cons_update_not_has hhas, ih]
      apply List.filter_congr
      intro q hq
      have hne : ¬ l.name = q.1 := fun h => not_key_of_not_mapHas hhas q hq h.symm
      simp [hne]
    · rcases exists_mapGet_of_mapHas hhas with ⟨fl, hget⟩
      rw [pcl_cons_update_has hget, ih, mapDelete, List.filter_filter]
      apply List.filter_congr
      intro q hq
      by_cases h1 : l.name = q.1
      · simp [h1]
      · have h1' : ¬ q.1 = l.name := fun h => h1 h.symm
        simp [h1, h1']

theorem pcl_update_shape :
    ∀ (cur : List Label) (m : LabelMap) (a : Action),
      a ∈ (processCurrentLabels "update" cur m).1 →
      ∃ n c d, a = Action.update n c d ∧ mapHas m n = true := by
  intro cur
  induction cur with
  | nil =>
    intro m a ha
    rw [pcl_nil] at ha
    cases ha
  | cons l ls ih =>
    intro m a ha
    rcases hhas : mapHas m l.name with _ | _
    · rw [pcl_cons_update_not_has hhas] at ha
      exact ih _ _ ha
    · rcases exists_mapGet_of_mapHas hhas with ⟨fl, hget⟩
      rw [pcl_cons_update_has hget] at ha
      rcases List.mem_append.1 ha with h | h
      · by_cases hcond : l.color ≠ fl.color ∨ l.description.getD "" ≠ fl.description
        · rw [if_pos hcond] at h
          rcases List.mem_singleton.1 h with rfl
          exact ⟨l.name, fl.color, fl.description, rfl, hhas⟩
        · rw [if_neg hcond] at h
          cases h
      · rcases ih _ _ h with ⟨n, c, d, rfl, hn⟩
        exact ⟨n, c, d, rfl, mapHas_of_mapHas_mapDelete hn⟩

theorem pcl_no_create (mode : String) (cur : List Label) (m : LabelMap) :
    ∀ a ∈ (processCurrentLabels mode cur m).1, a.isCreate = false := by
  intro a ha
  by_cases hm : mode = "update"
  · rw [hm] at ha
    rcases pcl_update_shape cur m a ha with ⟨n, c, d, rfl, _⟩
    rfl
  · rw [pcl_of_ne_update hm] at ha
    rcases List.mem_map.1 ha with ⟨l, _, rfl⟩
    rfl

/-! ## Execution and remote-state semantics -/

theorem executeFrom_noFail : ∀ (acts : List Action) (i : Nat),
    executeFrom noFail i acts = (acts, none) := by
  intro acts
  induction acts with
  | nil => intro i; rfl
  | cons a rest ih =>
    intro i
    rw [executeFrom]
    simp [noFail, ih]

theorem executeFrom_fail (failSpec : Nat → Option String) (msg : String) :
    ∀ (acts : List Action) (j k : Nat),
      failSpec (j + k) = some msg → (∀ i, i < k → failSpec (j + i) = none) →
      k < acts.length →
      executeFrom failSpec j acts = (acts.take k, some msg) := by
  intro acts
  induction acts with
  | nil =>
    intro j k _ _ hlen
    cases hlen
  | cons a rest ih =>
    intro j k hk hprev hlen
    match k with
    | 0 =>
      rw [executeFrom]
      rw [Nat.add_zero] at hk
      rw [hk]
      rfl
    | k' + 1 =>
      have h0 : failSpec j = none := by
        have := hprev 0 (Nat.succ_pos k')
        rwa [Nat.add_zero] at this
      rw [executeFrom, h0]
      have hrest : executeFrom failSpec (j + 1) rest = (rest.take k', some msg) := by
        apply ih (j + 1) k'
        · have harith : j + 1 + k' = j + (k' + 1) := by omega
          rw [harith]
          exact hk
        · intro i hi
          have := hprev (i + 1) (Nat.succ_lt_succ hi)
          rwa [Nat.add_comm i 1, ← Nat.add_assoc] at this
        · exact Nat.lt_of_succ_lt_succ (by simpa using hlen)
      rw [hrest]
      rfl

theorem applyActions_nil (cur : List Label) : applyActions cur [] = cur := rfl

theorem applyActions_cons (cur : List Label) (a : Action) (acts : List Action) :
    applyActions cur (a :: acts) = applyActions (applyAction cur a) acts := rfl

theorem applyActions_append (cur : List Label) (a b : List Action) :
    applyActions cur (a ++ b) = applyActions (applyActions cur a) b :=
  List.foldl_append _ _ _ _

theorem applyActions_creates :
    ∀ (m : LabelMap) (cur : List Label),
      applyActions cur (createActions m) = cur ++ m.map createdLabel := by
  intro m
  induction m with
  | nil => intro cur; simp [createActions, applyActions]
  | cons q m ih =>
    intro cur
    rw [createActions, List.map_cons, applyActions_cons]
    have : applyAction cur (Action.create q.1 q.2.color q.2.description)
        = cur ++ [createdLabel q] := rfl
    rw [this]
    have := ih (cur ++ [createdLabel q])
    rw [createActions] at this
    rw [this, List.map_cons, List.append_assoc]
    rfl

theorem updStep_name (l : Label) (a : Action) : (updStep l a).name = l.name := by
  cases a with
  | update n c d =>
    rw [updStep]
    split
    · rfl
    · rfl
  | delete n => rfl
  | create n c d => rfl

theorem foldl_updStep_name (acts : List Action) (l : Label) :
    (acts.foldl updStep l).name = l.name := by
  induction acts generalizing l with
  | nil => rfl
  | cons a acts ih =>
    rw [List.foldl_cons, ih, updStep_name]

theorem foldl_updStep_fixed :
    ∀ (acts : List Action) (l : Label), (∀ a ∈ acts, ¬ a.actionName = l.name) →
      acts.foldl updStep l = l := by
  intro acts
  induction acts with
  | nil => intro l _; rfl
  | cons a acts ih =>
    intro l h
    have hstep : updStep l a = l := by
      cases a with
      | update n c d =>
        rw [updStep]
        rw [if_neg (fun hl => h _ (List.mem_cons_self _ _) hl.symm)]
      | delete n => rfl
      | create n c d => rfl
    rw [List.foldl_cons, hstep]
    exact ih l (fun a ha => h a (List.mem_cons_of_mem _ ha))

theorem applyActions_updates :
    ∀ (acts : List Action), (∀ a ∈ acts, ∃ n c d, a = Action.update n c d) →
      ∀ cur : List Label, applyActions cur acts = cur.map (fun l => acts.foldl updStep l) := by
  intro acts
  induction acts with
  | nil => intro _ cur; simp [applyActions]
  | cons a acts ih =>
    intro h cur
    rcases h a (List.mem_cons_self _ _) with ⟨n, c, d, rfl⟩
    rw [applyActions_cons]
    have hstep : applyAction cur (Action.update n c d)
        = cur.map (fun l => updStep l (Action.update n c d)) := rfl
    rw [hstep, ih (fun a ha => h a (List.mem_cons_of_mem _ ha)), List.map_map]
    rfl

/-! ## `findLabel` lemmas -/

theorem findLabel_nil (k : String) : findLabel [] k = none := rfl

theorem findLabel_cons_pos {l : Label} {ls : List Label} {k : String} (h : l.name = k) :
    findLabel (l :: ls) k = some l := by
  unfold findLabel
  rw [List.find?_cons_of_pos _ (by simpa using h)]

theorem findLabel_cons_neg {l : Label} {ls : List Label} {k : String} (h : ¬ l.name = k) :
    findLabel (l :: ls) k = findLabel ls k := by
  unfold findLabel
  rw [List.find?_cons_of_neg _ (by simpa using h)]

theorem findLabel_name {cur : List Label} {k : String} {l : Label}
    (h : findLabel cur k = some l) : l.name = k := by
  have := List.find?_some h
  simpa using this

theorem findLabel_mem {cur : List Label} {k : String} {l : Label}
    (h : findLabel cur k = some l) : l ∈ cur :=
  List.mem_of_find?_eq_some h

theorem findLabel_eq_none {cur : List Label} {k : String} :
    findLabel cur k = none ↔ ∀ l ∈ cur, ¬ l.name = k := by
  simp [findLabel, List.find?_eq_none]

theorem findLabel_append (A B : List Label) (k : String) :
    findLabel (A ++ B) k = (findLabel A k).or (findLabel B k) :=
  List.find?_append

theorem findLabel_map {f : Label → Label} (hf : ∀ l, (f l).name = l.name)
    (cur : List Label) (k : String) :
    findLabel (cur.map f) k = (findLabel cur k).map f := by
  induction cur with
  | nil => rfl
  | cons l ls ih =>
    by_cases h : l.name = k
    · rw [List.map_cons, findLabel_cons_pos (by rw [hf]; exact h), findLabel_cons_pos h]
      rfl
    · rw [List.map_cons, findLabel_cons_neg (by rw [hf]; exact h), findLabel_cons_neg h, ih]

theorem findLabel_created {m : LabelMap} (hnd : (mapKeys m).Nodup)
    {k : String} {v : FileLabel} (h : (k, v) ∈ m) :
    findLabel (m.map createdLabel) k = some (createdLabel (k, v)) := by
  induction m with
  | nil => cases h
  | cons q m ih =>
    rw [mapKeys_cons] at hnd
    rcases List.mem_cons.1 h with hq | hq
    · rw [← hq, List.map_cons,
        findLabel_cons_pos (show (createdLabel (k, v)).name = k from rfl)]
    · have hne : ¬ q.1 = k := by
        intro hk
        have : k ∈ mapKeys m := List.mem_map.2 ⟨(k, v), hq, rfl⟩
        exact (List.nodup_cons.1 hnd).1 (hk ▸ this)
      rw [List.map_cons, findLabel_cons_neg hne]
      exact ih (List.nodup_cons.1 hnd).2 hq

/-! ## Idempotence of the update pass -/

theorem pcl_update_allMatched :
    ∀ (cur : List Label) (m : LabelMap),
      (∀ q ∈ m, ∃ l, findLabel cur q.1 = some l ∧ matchesDesired l q.2) →
      processCurrentLabels "update" cur m = ([], []) := by
  intro cur
  induction cur with
  | nil =>
    intro m h
    have hm : m = [] := by
      cases m with
      | nil => rfl
      | cons q m =>
        rcases h q (List.mem_cons_self q m) with ⟨l, hl, _⟩
        rw [findLabel_nil] at hl
        cases hl
    rw [hm, pcl_nil]
  | cons l ls ih =>
    intro m h
    rcases hhas : mapHas m l.name with _ | _
    · rw [pcl_cons_update_not_has hhas]
      apply ih
      intro q hq
      rcases h q hq with ⟨l', hl', hm'⟩
      have hne : ¬ l.name = q.1 := fun he => not_key_of_not_mapHas hhas q hq he.symm
      rw [findLabel_cons_neg hne] at hl'
      exact ⟨l', hl', hm'⟩
    · rcases exists_mapGet_of_mapHas hhas with ⟨fl, hget⟩
      have hmem : (l.name, fl) ∈ m := mapGet_mem hget
      rcases h _ hmem with ⟨l', hl', hm'⟩
      rw [findLabel_cons_pos rfl] at hl'
      obtain rfl : l = l' := Option.some.inj hl'
      have hcond : ¬ (l.color ≠ fl.color ∨ l.description.getD "" ≠ fl.description) := by
        push_neg
        exact ⟨hm'.1, hm'.2⟩
      have hrest : processCurrentLabels "update" ls (mapDelete m l.name) = ([], []) := by
        apply ih
        intro q hq
        rcases mem_mapDelete.1 hq with ⟨hqm, hqk⟩
        rcases h q hqm with ⟨l', hl', hm''⟩
        have hne : ¬ l.name = q.1 := fun he => hqk he.symm
        rw [findLabel_cons_neg hne] at hl'
        exact ⟨l', hl', hm''⟩
      rw [pcl_cons_update_has hget, hrest, if_neg hcond]
      rfl

theorem pcl_update_matched :
    ∀ (cur : List Label) (m : LabelMap), (mapKeys m).Nodup →
      ∀ q ∈ m, cur.any (fun l => l.name = q.1) = true →
      ∃ l, findLabel cur q.1 = some l ∧
        matchesDesired ((processCurrentLabels "update" cur m).1.foldl updStep l) q.2 := by
  intro cur
  induction cur with
  | nil =>
    intro m _ q _ hany
    simp at hany
  | cons l ls ih =>
    intro m hnd q hq hany
    rcases hhas : mapHas m l.name with _ | _
    · have hne : ¬ l.name = q.1 := fun he => not_key_of_not_mapHas hhas q hq he.symm
      have hany' : ls.any (fun l' => l'.name = q.1) = true := by
        rw [List.any_cons] at hany
        simpa [hne] using hany
      rcases ih m hnd q hq hany' with ⟨l₀, hfind, hmatch⟩
      refine ⟨l₀, by rw [findLabel_cons_neg hne]; exact hfind, ?_⟩
      have hfst : (processCurrentLabels "update" (l :: ls) m).1
          = (processCurrentLabels "update" ls m).1 := by
        rw [pcl_cons_update_not_has hhas]
      rw [hfst]
      exact hmatch
    · rcases exists_mapGet_of_mapHas hhas with ⟨fl, hget⟩
      have hfst : (processCurrentLabels "update" (l :: ls) m).1
          = (if l.color ≠ fl.color ∨ l.description.getD "" ≠ fl.description
               then [Action.update l.name fl.color fl.description] else [])
             ++ (processCurrentLabels "update" ls (mapDelete m l.name)).1 := by
        rw [pcl_cons_update_has hget]
      have hrestnames : ∀ a ∈ (processCurrentLabels "update" ls (mapDelete m l.name)).1,
          ¬ a.actionName = l.name := by
        intro a ha hname
        rcases pcl_update_shape ls _ a ha with ⟨n, c, d, rfl, hn⟩
        rcases mapHas_iff_exists.1 hn with ⟨q', hq', hk'⟩
        exact (mem_mapDelete.1 hq').2 (by rw [hk']; exact hname)
      by_cases hk : q.1 = l.name
      · have hqm : (q.1, q.2) ∈ m := by rw [Prod.mk.eta]; exact hq
        have hget' : mapGet m q.1 = some q.2 := mapGet_eq_of_mem hnd hqm
        rw [hk] at hget'
        obtain rfl : fl = q.2 := by
          rw [hget] at hget'
          exact Option.some.inj hget'
        refine ⟨l, by rw [findLabel_cons_pos hk.symm], ?_⟩
        rw [hfst]
        by_cases hcond : l.color ≠ q.2.color ∨ l.description.getD "" ≠ q.2.description
        · rw [if_pos hcond, List.foldl_append]
          have hstep : List.foldl updStep l
              [Action.update l.name q.2.color q.2.description]
              = ⟨l.name, q.2.color, some q.2.description⟩ := by
            rw [List.foldl_cons, List.foldl_nil, updStep, if_pos rfl]
          have hfix := foldl_updStep_fixed
            (processCurrentLabels "update" ls (mapDelete m l.name)).1
            (⟨l.name, q.2.color, some q.2.description⟩ : Label)
            (fun a ha => hrestnames a ha)
          rw [hstep, hfix]
          exact ⟨rfl, rfl⟩
        · have hfix := foldl_updStep_fixed
            (processCurrentLabels "update" ls (mapDelete m l.name)).1
            l (fun a ha => hrestnames a ha)
          rw [if_neg hcond, List.nil_append, hfix]
          push_neg at hcond
          exact ⟨hcond.1, hcond.2⟩
      · have hq' : q ∈ mapDelete m l.name := mem_mapDelete.2 ⟨hq, hk⟩
        have hnd' := mapKeys_nodup_mapDelete l.name hnd
        have hlq : ¬ l.name = q.1 := fun he => hk he.symm
        have hany' : ls.any (fun l' => l'.name = q.1) = true := by
          rw [List.any_cons] at hany
          simpa [hlq] using hany
        rcases ih (mapDelete m l.name) hnd' q hq' hany' with ⟨l₀, hfind, hmatch⟩
        refine ⟨l₀, by rw [findLabel_cons_neg hlq]; exact hfind, ?_⟩
        have hl₀name : l₀.name = q.1 := findLabel_name hfind
        rw [hfst, List.foldl_append]
        have hherefix : List.foldl updStep l₀
            (if l.color ≠ fl.color ∨ l.description.getD "" ≠ fl.description
               then [Action.update l.name fl.color fl.description] else []) = l₀ := by
          split
          · rw [List.foldl_cons, List.foldl_nil, updStep,
              if_neg (by rw [hl₀name]; exact hk)]
          · rfl
        rw [hherefix]
        exact hmatch

/-! ## Run-level lemmas -/

theorem run_eq_of_build_ok {failSpec : Nat → Option String} {mode : String}
    {manifest : List ManifestEntry} {current : List Label} {m : LabelMap}
    (hb : buildFileLabelsMap manifest = Except.ok m) :
    run failSpec mode manifest current
      = (match executeFrom failSpec 0 (reconcileActions mode current m) with
         | (applied, some msg) => RunResult.failed applied msg
         | (applied, none) => RunResult.ok applied) := by
  unfold run
  rw [hb]

theorem run_noFail_eq {mode : String} {manifest : List ManifestEntry} {current : List Label}
    {m : LabelMap} (hb : buildFileLabelsMap manifest = Except.ok m) :
    run noFail mode manifest current = RunResult.ok (reconcileActions mode current m) := by
  unfold run
  rw [hb]
  simp [executeFrom_noFail]

theorem run_noFail_ok_inv {mode : String} {manifest : List ManifestEntry} {current : List Label}
    {acts : List Action} (h : run noFail mode manifest current = RunResult.ok acts) :
    ∃ m, buildFileLabelsMap manifest = Except.ok m ∧ acts = reconcileActions mode current m := by
  unfold run at h
  rcases hb : buildFileLabelsMap manifest with msg | m
  · rw [hb] at h
    cases h
  · rw [hb] at h
    simp [executeFrom_noFail] at h
    exact ⟨m, rfl, h.symm⟩

theorem reconcile_update (cur : List Label) (m : LabelMap) :
    reconcileActions "update" cur m
      = (processCurrentLabels "update" cur m).1
        ++ createActions (processCurrentLabels "update" cur m).2 := by
  rw [reconcileActions, if_pos (by decide : ¬ ("update" : String) = "add")]

theorem secondRun_empty {manifest : List ManifestEntry} {current : List Label} {m : LabelMap}
    (hb : buildFileLabelsMap manifest = Except.ok m) :
    reconcileActions "update" (applyActions current (reconcileActions "update" current m)) m
      = [] := by
  have hnd := buildFileLabelsMap_nodup hb
  have hshape : ∀ a ∈ (processCurrentLabels "update" current m).1,
      ∃ n c d, a = Action.update n c d := by
    intro a ha
    rcases pcl_update_shape current m a ha with ⟨n, c, d, rfl, _⟩
    exact ⟨n, c, d, rfl⟩
  have hcur' : applyActions current (reconcileActions "update" current m)
      = current.map (fun l => (processCurrentLabels "update" current m).1.foldl updStep l)
        ++ (processCurrentLabels "update" current m).2.map createdLabel := by
    rw [reconcile_update, applyActions_append,
      applyActions_updates _ hshape current, applyActions_creates]
  have hnd2 : (mapKeys (processCurrentLabels "update" current m).2).Nodup := by
    rw [pcl_update_snd]
    exact ((List.Sublist.map Prod.fst (List.filter_sublist m)).nodup hnd)
  have hmatchedAll : ∀ q ∈ m,
      ∃ l, findLabel (applyActions current (reconcileActions "update" current m)) q.1 = some l
        ∧ matchesDesired l q.2 := by
    intro q hq
    rcases hany : current.any (fun l => l.name = q.1) with _ | _
    · -- the name never occurs in the current set: it was created
      have hq2 : q ∈ (processCurrentLabels "update" current m).2 := by
        rw [pcl_update_snd]
        exact List.mem_filter.2 ⟨hq, by simp [hany]⟩
      have hA : findLabel
          (current.map (fun l => (processCurrentLabels "update" current m).1.foldl updStep l))
          q.1 = none := by
        rw [findLabel_map (fun l => foldl_updStep_name _ l) current q.1]
        have hnone : findLabel current q.1 = none := by
          apply findLabel_eq_none.2
          intro l hl hn
          have hx : current.any (fun l => l.name = q.1) = true :=
            List.any_eq_true.2 ⟨l, hl, by simpa using hn⟩
          rw [hany] at hx
          cases hx
        rw [hnone]
        rfl
      rw [hcur', findLabel_append, hA, Option.none_or]
      have hfound : findLabel
          ((processCurrentLabels "update" current m).2.map createdLabel) q.1
          = some (createdLabel (q.1, q.2)) :=
        findLabel_created hnd2 (by rw [Prod.mk.eta]; exact hq2)
      exact ⟨createdLabel (q.1, q.2), hfound, rfl, rfl⟩
    · -- the name occurs: its first occurrence matches after the update pass
      rcases pcl_update_matched current m hnd q hq hany with ⟨l₀, hfind, hmatch⟩
      refine ⟨(processCurrentLabels "update" current m).1.foldl updStep l₀, ?_, hmatch⟩
      rw [hcur', findLabel_append]
      have hB : findLabel
          (current.map (fun l => (processCurrentLabels "update" current m).1.foldl updStep l))
          q.1 = some ((processCurrentLabels "update" current m).1.foldl updStep l₀) := by
        rw [findLabel_map (fun l => foldl_updStep_name _ l) current q.1, hfind]
        rfl
      rw [hB, Option.or_some]
  have hpcl := pcl_update_allMatched
    (applyActions current (reconcileActions "update" current m)) m hmatchedAll
  rw [reconcile_update, hpcl]
  rfl

/-! ## Counting and frame lemmas -/

theorem countP_key_nodup {m : LabelMap} (hnd : (mapKeys m).Nodup) (n : String) :
    m.countP (fun q => q.1 = n) = if mapHas m n = true then 1 else 0 := by
  induction m with
  | nil =>
    rw [show mapHas [] n = false from rfl]
    rfl
  | cons q m ih =>
    rw [mapKeys_cons] at hnd
    rw [List.countP_cons]
    by_cases hq : q.1 = n
    · have hz : m.countP (fun q => q.1 = n) = 0 := by
        apply List.countP_eq_zero.2
        intro q' hq' hpq'
        have : q'.1 = n := by simpa using hpq'
        exact (List.nodup_cons.1 hnd).1
          (hq ▸ this ▸ List.mem_map.2 ⟨q', hq', rfl⟩)
      have hhas : mapHas (q :: m) n = true :=
        mapHas_iff_exists.2 ⟨q, List.mem_cons_self q m, hq⟩
      rw [hz, hhas]
      simp [hq]
    · have hhas : mapHas (q :: m) n = mapHas m n := by
        simp [mapHas, hq]
      rw [if_neg (by simpa using hq), ih (List.nodup_cons.1 hnd).2, hhas]
      exact Nat.add_zero _

theorem applyAction_preserves_name (cur : List Label) (a : Action) (n : String)
    (h : ¬ a.actionName = n) :
    (applyAction cur a).filter (fun l => l.name = n) = cur.filter (fun l => l.name = n) := by
  cases a with
  | delete n' =>
    have hne : ¬ n' = n := h
    rw [applyAction, List.filter_filter]
    apply List.filter_congr
    intro l _
    by_cases hl : l.name = n
    · have hln' : ¬ l.name = n' := fun he => hne (he.symm.trans hl)
      have hnn' : ¬ n = n' := fun he => hne he.symm
      simp [hl, hln', hnn']
    · simp [hl]
  | update n' c d =>
    rw [applyAction, List.filter_map]
    have hcomp : cur.filter
        ((fun l => decide (l.name = n)) ∘ fun l => if l.name = n' then ⟨l.name, c, some d⟩ else l)
        = cur.filter (fun l => l.name = n) := by
      apply List.filter_congr
      intro l _
      have : ((if l.name = n' then (⟨l.name, c, some d⟩ : Label) else l)).name = l.name := by
        split
        · rfl
        · rfl
      simp [Function.comp, this]
    rw [hcomp]
    have : ∀ l ∈ cur.filter (fun l => l.name = n),
        (if l.name = n' then (⟨l.name, c, some d⟩ : Label) else l) = l := by
      intro l hl
      have hln : l.name = n := by simpa using (List.mem_filter.1 hl).2
      rw [if_neg (fun he => h (by rw [show (Action.update n' c d).actionName = n' from rfl, ← he, hln]))]
    rw [List.map_congr_left this, List.map_id']
  | create n' c d =>
    rw [applyAction, List.filter_append]
    have : List.filter (fun l => l.name = n) [(⟨n', c, some d⟩ : Label)] = [] := by
      rw [List.filter_cons]
      rw [if_neg (by simpa using fun he => h (show (Action.create n' c d).actionName = n from he))]
      rfl
    rw [this, List.append_nil]

theorem applyActions_preserves_name :
    ∀ (acts : List Action) (cur : List Label) (n : String),
      (∀ a ∈ acts, ¬ a.actionName = n) →
      (applyActions cur acts).filter (fun l => l.name = n)
        = cur.filter (fun l => l.name = n) := by
  intro acts
  induction acts with
  | nil => intro cur n _; rfl
  | cons a acts ih =>
    intro cur n h
    rw [applyActions_cons, ih _ _ (fun a ha => h a (List.mem_cons_of_mem _ ha)),
      applyAction_preserves_name cur a n (h a (List.mem_cons_self _ _))]

/-! ## Claims -/

/-- Claim C1, counterexample: in `delete` mode with a non-empty manifest the
run does emit a Create action — the map is untouched by the delete pass, so
every desired entry is created after the deletes.  Here the single manifest
entry `feature` is created even though the claim says no Create is ever
emitted in delete mode. -/
theorem deleteMode_creates_cex :
    run noFail "delete" [⟨"feature", "00ff00", none⟩] [⟨"bug", "ff0000", none⟩]
      = RunResult.ok [Action.delete "bug", Action.create "feature" "00ff00" ""]
    ∧ (Action.create "feature" "00ff00" "").isCreate = true := by
  constructor
  · rfl
  · rfl

/-- Claim C1 (amended): in `delete` mode every label of the current set yields
exactly one Delete action (in listing order), and the Create actions emitted
afterwards are exactly the desired-map entries — they are absent only when the
manifest is empty. -/
theorem deleteMode_completeness_amended (manifest : List ManifestEntry)
    (current : List Label) (m : LabelMap)
    (hb : buildFileLabelsMap manifest = Except.ok m) :
    run noFail "delete" manifest current
      = RunResult.ok (current.map (fun l => Action.delete l.name) ++ createActions m)
    ∧ ∀ n : String,
        (current.map (fun l => Action.delete l.name) ++ createActions m).countP
            (fun a => a = Action.delete n)
          = current.countP (fun l => l.name = n) := by
  constructor
  · rw [run_noFail_eq hb, reconcileActions,
      if_pos (by decide : ¬ ("delete" : String) = "add"),
      pcl_of_ne_update (by decide : ¬ ("delete" : String) = "update")]
  · intro n
    rw [List.countP_append]
    have hcreates : (createActions m).countP (fun a => a = Action.delete n) = 0 := by
      apply List.countP_eq_zero.2
      intro a ha
      rcases List.mem_map.1 ha with ⟨q, _, rfl⟩
      simp
    have hdeletes : (current.map (fun l => Action.delete l.name)).countP
        (fun a => a = Action.delete n) = current.countP (fun l => l.name = n) := by
      rw [List.countP_map]
      apply List.countP_congr
      intro l _
      simp [Function.comp]
    rw [hcreates, hdeletes, Nat.add_zero]

/-- Claim C1 (amended) witness at a concrete input. -/
theorem deleteMode_completeness_amended_witness :
    buildFileLabelsMap [⟨"feature", "00ff00", none⟩]
      = Except.ok [("feature", ⟨"00ff00", ""⟩)]
    ∧ (run noFail "delete" [⟨"feature", "00ff00", none⟩] [⟨"bug", "ff0000", none⟩]
        = RunResult.ok (([(⟨"bug", "ff0000", none⟩ : Label)]).map
              (fun l => Action.delete l.name)
            ++ createActions [("feature", ⟨"00ff00", ""⟩)])
      ∧ ∀ n : String,
          (([⟨"bug", "ff0000", none⟩] : List Label).map (fun l => Action.delete l.name)
              ++ createActions [("feature", ⟨"00ff00", ""⟩)]).countP
              (fun a => a = Action.delete n)
            = ([⟨"bug", "ff0000", none⟩] : List Label).countP (fun l => l.name = n)) :=
  ⟨rfl, deleteMode_completeness_amended [⟨"feature", "00ff00", none⟩]
    [⟨"bug", "ff0000", none⟩] [("feature", ⟨"00ff00", ""⟩)] rfl⟩

/-- Claim C2: a manifest containing any entry with an empty (JS-falsy) name or
color makes the run fail with the validation message and zero mutation calls,
in every mode and under every failure oracle — validation happens before any
mutation. -/
theorem validation_failfast (failSpec : Nat → Option String) (mode : String)
    (manifest : List ManifestEntry) (current : List Label)
    (h : ∃ e ∈ manifest, e.name = "" ∨ e.color = "") :
    run failSpec mode manifest current = RunResult.failed [] validationMsg := by
  unfold run
  rw [show buildFileLabelsMap manifest = Except.error validationMsg from
    buildFrom_error_of_invalid manifest [] h]

/-- Claim C2 witness: one invalid entry among valid ones, delete mode, a
non-empty current set. -/
theorem validation_failfast_witness :
    (∃ e ∈ [(⟨"a", "1", none⟩ : ManifestEntry), ⟨"b", "", none⟩, ⟨"c", "3", none⟩],
        e.name = "" ∨ e.color = "")
    ∧ run noFail "delete" [⟨"a", "1", none⟩, ⟨"b", "", none⟩, ⟨"c", "3", none⟩]
        [⟨"x", "9", none⟩] = RunResult.failed [] validationMsg :=
  ⟨by decide, validation_failfast noFail "delete" _ _ (by decide)⟩

/-- Claim C3: update mode is idempotent — if the second run starts from the
remote state produced by applying the first run's actions, it makes zero
mutation calls. -/
theorem updateMode_idempotent (manifest : List ManifestEntry) (current : List Label)
    (acts1 : List Action)
    (h1 : run noFail "update" manifest current = RunResult.ok acts1) :
    run noFail "update" manifest (applyActions current acts1) = RunResult.ok [] := by
  rcases run_noFail_ok_inv h1 with ⟨m, hb, rfl⟩
  rw [run_noFail_eq hb, secondRun_empty hb]

/-- Claim C3 witness: a first run that updates, creates and skips, then an
empty second run. -/
theorem updateMode_idempotent_witness :
    run noFail "update" [⟨"a", "1", some "x"⟩, ⟨"b", "2", none⟩]
        [⟨"a", "9", some "y"⟩, ⟨"c", "3", none⟩]
      = RunResult.ok [Action.update "a" "1" "x", Action.create "b" "2" ""]
    ∧ run noFail "update" [⟨"a", "1", some "x"⟩, ⟨"b", "2", none⟩]
        (applyActions [⟨"a", "9", some "y"⟩, ⟨"c", "3", none⟩]
          [Action.update "a" "1" "x", Action.create "b" "2" ""])
      = RunResult.ok [] :=
  ⟨rfl, updateMode_idempotent [⟨"a", "1", some "x"⟩, ⟨"b", "2", none⟩]
    [⟨"a", "9", some "y"⟩, ⟨"c", "3", none⟩]
    [Action.update "a" "1" "x", Action.create "b" "2" ""] rfl⟩

/-- Claim C4: in `add` mode the whole current-set pass is skipped, so the run
consists solely of Create actions — no Update, no Delete — one per distinct
manifest name, whatever the current set holds. -/
theorem addMode_purity (manifest : List ManifestEntry) (current : List Label)
    (m : LabelMap) (hb : buildFileLabelsMap manifest = Except.ok m) :
    run noFail "add" manifest current = RunResult.ok (createActions m)
    ∧ (∀ a ∈ createActions m, a.isCreate = true)
    ∧ ∀ n : String, (createActions m).countP (fun a => a.actionName = n)
        = if manifest.any (fun e => e.name = n) = true then 1 else 0 := by
  refine ⟨?_, ?_, ?_⟩
  · rw [run_noFail_eq hb, reconcileActions, if_neg (fun hcon => hcon rfl)]
    rfl
  · intro a ha
    rcases List.mem_map.1 ha with ⟨q, _, rfl⟩
    rfl
  · intro n
    rw [createActions, List.countP_map]
    have hcong : m.countP
        ((fun a => a.actionName = n) ∘ fun q => Action.create q.1 q.2.color q.2.description)
        = m.countP (fun q => q.1 = n) := by
      apply List.countP_congr
      intro q _
      simp [Function.comp, Action.actionName]
    rw [hcong, countP_key_nodup (buildFileLabelsMap_nodup hb) n,
      buildFileLabelsMap_mapHas hb n]

/-- Claim C4 witness: a current set sharing a name with the manifest still
produces only the Create actions. -/
theorem addMode_purity_witness :
    buildFileLabelsMap [⟨"a", "1122cc", none⟩] = Except.ok [("a", ⟨"1122cc", ""⟩)]
    ∧ (run noFail "add" [⟨"a", "1122cc", none⟩] [⟨"a", "9", none⟩, ⟨"b", "2", none⟩]
        = RunResult.ok (createActions [("a", ⟨"1122cc", ""⟩)])
      ∧ (∀ a ∈ createActions [("a", ⟨"1122cc", ""⟩)], a.isCreate = true)
      ∧ ∀ n : String,
          (createActions [("a", ⟨"1122cc", ""⟩)]).countP (fun a => a.actionName = n)
            = if ([(⟨"a", "1122cc", none⟩ : ManifestEntry)].any (fun e => e.name = n)) = true
              then 1 else 0) :=
  ⟨rfl, addMode_purity [⟨"a", "1122cc", none⟩] [⟨"a", "9", none⟩, ⟨"b", "2", none⟩]
    [("a", ⟨"1122cc", ""⟩)] rfl⟩

/-- Claim C5: in update mode a current label whose name is not a key of the
desired mapping is never the target of any action, and the remote labels of
that name are exactly the same after the run as before. -/
theorem updateMode_conservation (manifest : List ManifestEntry) (current : List Label)
    (m : LabelMap) (l : Label) (hb : buildFileLabelsMap manifest = Except.ok m)
    (hl : l ∈ current) (habs : mapHas m l.name = false) :
    (∀ a ∈ reconcileActions "update" current m, ¬ a.actionName = l.name)
    ∧ (applyActions current (reconcileActions "update" current m)).filter
        (fun lab => lab.name = l.name)
      = current.filter (fun lab => lab.name = l.name) := by
  have hno : ∀ a ∈ reconcileActions "update" current m, ¬ a.actionName = l.name := by
    intro a ha he
    have hhas : mapHas m a.actionName = true := by
      rw [reconcile_update] at ha
      rcases List.mem_append.1 ha with h | h
      · rcases pcl_update_shape current m a h with ⟨n, c, d, rfl, hn⟩
        exact hn
      · rcases List.mem_map.1 h with ⟨q, hq, rfl⟩
        have hqm : q ∈ m := by
          rw [pcl_update_snd] at hq
          exact (List.mem_filter.1 hq).1
        exact mapHas_of_mem hqm
    rw [he, habs] at hhas
    cases hhas
  exact ⟨hno, applyActions_preserves_name _ current l.name hno⟩

/-- Claim C5 witness: the current label `bug` is absent from the manifest and
survives the update run untouched. -/
theorem updateMode_conservation_witness :
    buildFileLabelsMap [⟨"a", "1", none⟩] = Except.ok [("a", ⟨"1", ""⟩)]
    ∧ (⟨"bug", "2", some "d"⟩ : Label) ∈ [(⟨"bug", "2", some "d"⟩ : Label)]
    ∧ mapHas [("a", ⟨"1", ""⟩)] (Label.name ⟨"bug", "2", some "d"⟩) = false
    ∧ ((∀ a ∈ reconcileActions "update" [⟨"bug", "2", some "d"⟩] [("a", ⟨"1", ""⟩)],
          ¬ a.actionName = (Label.name ⟨"bug", "2", some "d"⟩))
      ∧ (applyActions [⟨"bug", "2", some "d"⟩]
            (reconcileActions "update" [⟨"bug", "2", some "d"⟩] [("a", ⟨"1", ""⟩)])).filter
            (fun lab => lab.name = (Label.name ⟨"bug", "2", some "d"⟩))
          = ([(⟨"bug", "2", some "d"⟩ : Label)]).filter
              (fun lab => lab.name = (Label.name ⟨"bug", "2", some "d"⟩))) :=
  ⟨rfl, List.mem_cons_self _ _, rfl,
    updateMode_conservation [⟨"a", "1", none⟩] [⟨"bug", "2", some "d"⟩]
      [("a", ⟨"1", ""⟩)] ⟨"bug", "2", some "d"⟩ rfl (List.mem_cons_self _ _) rfl⟩

/-- Claim C6: every run's applied action sequence splits as a non-Create
phase (the current-set pass, in listing order) followed by a Create-only
phase (the leftover desired entries, in map iteration order). -/
theorem phase_ordering (mode : String) (manifest : List ManifestEntry)
    (current : List Label) (m : LabelMap)
    (hb : buildFileLabelsMap manifest = Except.ok m) :
    ∃ pre post,
      run noFail mode manifest current = RunResult.ok (pre ++ post)
      ∧ (∀ a ∈ pre, a.isCreate = false) ∧ (∀ a ∈ post, a.isCreate = true) := by
  by_cases hadd : mode = "add"
  · subst hadd
    refine ⟨[], createActions m, ?_, fun a ha => absurd ha (List.not_mem_nil a), ?_⟩
    · rw [run_noFail_eq hb, reconcileActions, if_neg (fun hcon => hcon rfl)]
    · intro a ha
      rcases List.mem_map.1 ha with ⟨q, _, rfl⟩
      rfl
  · refine ⟨(processCurrentLabels mode current m).1,
      createActions (processCurrentLabels mode current m).2, ?_,
      pcl_no_create mode current m, ?_⟩
    · rw [run_noFail_eq hb, reconcileActions, if_pos hadd]
    · intro a ha
      rcases List.mem_map.1 ha with ⟨q, _, rfl⟩
      rfl

/-- Claim C6 witness: an update run that deletes nothing, updates one label
and creates another. -/
theorem phase_ordering_witness :
    buildFileLabelsMap [⟨"a", "1", none⟩, ⟨"b", "2", none⟩]
      = Except.ok [("a", ⟨"1", ""⟩), ("b", ⟨"2", ""⟩)]
    ∧ ∃ pre post,
        run noFail "update" [⟨"a", "1", none⟩, ⟨"b", "2", none⟩] [⟨"a", "9", none⟩]
          = RunResult.ok (pre ++ post)
        ∧ (∀ a ∈ pre, a.isCreate = false) ∧ (∀ a ∈ post, a.isCreate = true) :=
  ⟨rfl, phase_ordering "update" [⟨"a", "1", none⟩, ⟨"b", "2", none⟩] [⟨"a", "9", none⟩]
    [("a", ⟨"1", ""⟩), ("b", ⟨"2", ""⟩)] rfl⟩

/-- Claim C7: duplicate names in a valid manifest are not rejected — the map
builds successfully and each name maps to the color and empty-normalized
description of its last manifest entry. -/
theorem duplicates_last_wins (manifest : List ManifestEntry)
    (hvalid : ∀ e ∈ manifest, ¬(e.name = "" ∨ e.color = "")) :
    ∃ m, buildFileLabelsMap manifest = Except.ok m
      ∧ ∀ n : String, mapGet m n
          = (match lastEntry n manifest with
             | some e => some ⟨e.color, e.description.getD ""⟩
             | none => none) := by
  rcases buildFrom_ok_of_valid manifest [] hvalid with ⟨m, hm⟩
  refine ⟨m, hm, ?_⟩
  intro n
  rw [buildFrom_mapGet manifest [] m hm n]
  cases lastEntry n manifest
  · rfl
  · rfl

/-- Claim C7 witness: two entries named `a`; the second one's color and
description win. -/
theorem duplicates_last_wins_witness :
    (∀ e ∈ [(⟨"a", "1", some "x"⟩ : ManifestEntry), ⟨"b", "2", none⟩, ⟨"a", "3", none⟩],
        ¬(e.name = "" ∨ e.color = ""))
    ∧ ∃ m, buildFileLabelsMap [⟨"a", "1", some "x"⟩, ⟨"b", "2", none⟩, ⟨"a", "3", none⟩]
          = Except.ok m
        ∧ ∀ n : String, mapGet m n
            = (match lastEntry n [(⟨"a", "1", some "x"⟩ : ManifestEntry),
                  ⟨"b", "2", none⟩, ⟨"a", "3", none⟩] with
               | some e => some ⟨e.color, e.description.getD ""⟩
               | none => none) :=
  ⟨by decide, duplicates_last_wins _ (by decide)⟩

/-- Claim C8: for a current label whose name is in the desired mapping, an
Update carrying the desired color and description is emitted exactly when the
colors differ or the empty-string-normalized descriptions differ, and nothing
is emitted for that label otherwise; in particular (spec scenario) a current
label without description matches a desired entry with empty description, so
only the missing `feature` label is created. -/
theorem updateMode_compare_iff (m : LabelMap) (l : Label) (rest : List Label)
    (fl : FileLabel) (hget : mapGet m l.name = some fl) :
    (processCurrentLabels "update" (l :: rest) m).1
      = (if l.color ≠ fl.color ∨ l.description.getD "" ≠ fl.description
           then [Action.update l.name fl.color fl.description] else [])
        ++ (processCurrentLabels "update" rest (mapDelete m l.name)).1
    ∧ run noFail "update" [⟨"bug", "ff0000", some ""⟩, ⟨"feature", "00ff00", none⟩]
        [⟨"bug", "ff0000", none⟩]
      = RunResult.ok [Action.create "feature" "00ff00" ""] := by
  constructor
  · rw [pcl_cons_update_has hget]
  · rfl

/-- Claim C8 witness: a color mismatch on `b` yields the Update action. -/
theorem updateMode_compare_iff_witness :
    mapGet [("b", ⟨"1", ""⟩)] (Label.name ⟨"b", "2", none⟩) = some ⟨"1", ""⟩
    ∧ ((processCurrentLabels "update" [(⟨"b", "2", none⟩ : Label)] [("b", ⟨"1", ""⟩)]).1
        = (if (⟨"b", "2", none⟩ : Label).color ≠ (⟨"1", ""⟩ : FileLabel).color
              ∨ (⟨"b", "2", none⟩ : Label).description.getD ""
                  ≠ (⟨"1", ""⟩ : FileLabel).description
             then [Action.update (Label.name ⟨"b", "2", none⟩)
                 (FileLabel.color ⟨"1", ""⟩) (FileLabel.description ⟨"1", ""⟩)] else [])
          ++ (processCurrentLabels "update" []
                (mapDelete [("b", ⟨"1", ""⟩)] (Label.name ⟨"b", "2", none⟩))).1
      ∧ run noFail "update" [⟨"bug", "ff0000", some ""⟩, ⟨"feature", "00ff00", none⟩]
          [⟨"bug", "ff0000", none⟩]
        = RunResult.ok [Action.create "feature" "00ff00" ""]) :=
  ⟨rfl, updateMode_compare_iff [("b", ⟨"1", ""⟩)] ⟨"b", "2", none⟩ [] ⟨"1", ""⟩ rfl⟩

/-- Claim C9: if the mutation call at position `k` of the emitted sequence
rejects with `msg` (all earlier calls succeeding), the run stops there: the
applied actions are exactly the first `k` (no rollback, no continuation) and
the outcome is the failure status carrying `msg` — not a thrown exception. -/
theorem mutation_failure_aborts (failSpec : Nat → Option String) (mode : String)
    (manifest : List ManifestEntry) (current : List Label) (m : LabelMap)
    (k : Nat) (msg : String) (hb : buildFileLabelsMap manifest = Except.ok m)
    (hk : failSpec k = some msg) (hprev : ∀ i, i < k → failSpec i = none)
    (hlen : k < (reconcileActions mode current m).length) :
    run failSpec mode manifest current
      = RunResult.failed ((reconcileActions mode current m).take k) msg := by
  rw [run_eq_of_build_ok hb, executeFrom_fail failSpec msg _ 0 k (by simpa using hk)
    (fun i hi => by simpa using hprev i hi) hlen]

/-- Claim C9 witness: the second of two delete-mode calls fails; only the
first delete remains applied. -/
theorem mutation_failure_aborts_witness :
    buildFileLabelsMap [⟨"a", "1", none⟩] = Except.ok [("a", ⟨"1", ""⟩)]
    ∧ (fun i => if i = 1 then some "boom" else none : Nat → Option String) 1 = some "boom"
    ∧ (∀ i, i < 1 → (fun i => if i = 1 then some "boom" else none : Nat → Option String) i
        = none)
    ∧ 1 < (reconcileActions "delete" [⟨"b", "2", none⟩] [("a", ⟨"1", ""⟩)]).length
    ∧ run (fun i => if i = 1 then some "boom" else none) "delete" [⟨"a", "1", none⟩]
        [⟨"b", "2", none⟩]
      = RunResult.failed
          ((reconcileActions "delete" [⟨"b", "2", none⟩] [("a", ⟨"1", ""⟩)]).take 1) "boom" :=
  ⟨rfl, rfl, by decide, by decide,
    mutation_failure_aborts (fun i => if i = 1 then some "boom" else none) "delete"
      [⟨"a", "1", none⟩] [⟨"b", "2", none⟩] [("a", ⟨"1", ""⟩)] 1 "boom"
      rfl rfl (by decide) (by decide)⟩

/-- Claim C10: any mode string other than `"add"` and `"update"` falls into
the unconditional-delete branch, so the run is indistinguishable from delete
mode: every current label is deleted and then every desired entry is created;
the mode is never validated against the three-value enum. -/
theorem unknown_mode_acts_as_delete (failSpec : Nat → Option String) (mode : String)
    (manifest : List ManifestEntry) (current : List Label)
    (h1 : ¬ mode = "add") (h2 : ¬ mode = "update") :
    run failSpec mode manifest current = run failSpec "delete" manifest current
    ∧ ∀ m, buildFileLabelsMap manifest = Except.ok m →
        reconcileActions mode current m
          = current.map (fun l => Action.delete l.name) ++ createActions m := by
  have hrec : ∀ m : LabelMap, reconcileActions mode current m
      = current.map (fun l => Action.delete l.name) ++ createActions m := by
    intro m
    rw [reconcileActions, if_pos h1, pcl_of_ne_update h2]
  have hrecD : ∀ m : LabelMap, reconcileActions "delete" current m
      = current.map (fun l => Action.delete l.name) ++ createActions m := by
    intro m
    rw [reconcileActions, if_pos (by decide : ¬ ("delete" : String) = "add"),
      pcl_of_ne_update (by decide : ¬ ("delete" : String) = "update")]
  constructor
  · rcases hb : buildFileLabelsMap manifest with msg | m
    · unfold run
      rw [hb]
    · rw [run_eq_of_build_ok hb, run_eq_of_build_ok hb, hrec m, hrecD m]
  · intro m _
    exact hrec m

/-- Claim C10 witness: the misspelled mode `"updte"` deletes and recreates. -/
theorem unknown_mode_acts_as_delete_witness :
    (¬ ("updte" : String) = "add") ∧ (¬ ("updte" : String) = "update")
    ∧ (run noFail "updte" [⟨"a", "1", none⟩] [⟨"b", "2", none⟩]
        = run noFail "delete" [⟨"a", "1", none⟩] [⟨"b", "2", none⟩]
      ∧ ∀ m, buildFileLabelsMap [⟨"a", "1", none⟩] = Except.ok m →
          reconcileActions "updte" [⟨"b", "2", none⟩] m
            = ([(⟨"b", "2", none⟩ : Label)]).map (fun l => Action.delete l.name)
              ++ createActions m) :=
  ⟨by decide, by decide,
    unknown_mode_acts_as_delete noFail "updte" _ _ (by decide) (by decide)⟩

end LabelSync
